import Mathlib

/-!
# Verification of the filename-similarity grouping tool (`src/main.py`)

This file gives a shallow embedding, in Lean 4, of the algorithmic core of
`src/main.py`: the name normalizer (`normalize_for_match`), the fuzzy
similarity scorer (the call to `thefuzz.fuzz.ratio`), the greedy grouping
engine (`group_files`), the group summarizer (the per-group block of
`export_to_excel` / `scan_files`) and the stat wrapper (`get_mod_time`).

Conventions of the embedding:
* Python strings are Lean `String`s (`List Char` of code points); `str.lower`
  is modelled character-wise by `Char.toLower` (ASCII case mapping — none of
  the verified properties depends on non-ASCII case folding).
* The platform path separator is `'/'` (POSIX), matching `os.sep` on the
  platform the tool runs on in this repository.
* `datetime` values are modelled as `Nat`; `datetime.min` is the least
  element `0` (all that the code uses of datetimes is their total order and
  that `datetime.min` is the minimum representable value).
* Python's `try/except` around `os.path.getmtime` is modelled by abstracting
  the filesystem as a function `String → Option DateTime`, `none` meaning
  the stat raised.
-/

namespace Scan

/-! ## Characters and strings -/

/-- Character-wise lowercasing, the model of Python `str.lower()`. -/
def pyLower (l : List Char) : List Char := l.map Char.toLower

/-- Index of the last occurrence of `c` in `l`, if any
(Python `str.rfind`, with `none` for the "not found" result `-1`). -/
def rfindIdx (c : Char) : List Char → Option Nat
  | [] => none
  | x :: xs =>
    match rfindIdx c xs with
    | some k => some (k + 1)
    | none => if x = c then some 0 else none

/-- `os.path.basename` on POSIX: everything after the last `'/'`. -/
def basenameData (l : List Char) : List Char :=
  match rfindIdx '/' l with
  | none => l
  | some k => l.drop (k + 1)

/-- `os.path.splitext` on POSIX (CPython `genericpath._splitext` with
`sep = '/'`, no `altsep`, `extsep = '.'`): split at the last dot, provided
the last dot lies after the last separator and at least one character of the
final path component before that dot is not itself a dot (leading dots of
the basename never start an extension: `splitext ".bashrc" = (".bashrc", "")`). -/
def splitextData (l : List Char) : List Char × List Char :=
  match rfindIdx '.' l with
  | none => (l, [])
  | some d =>
    let s : Nat :=
      match rfindIdx '/' l with
      | none => 0
      | some k => k + 1
    if ((l.drop s).take (d - s)).any (fun c => c ≠ '.') then
      (l.take d, l.drop d)
    else
      (l, [])

/-- `os.path.basename` lifted to `String`. -/
def basename (s : String) : String := ⟨basenameData s.data⟩

/-- `normalize_for_match` from `src/main.py`:
`os.path.splitext(filename)[0].lower()`. -/
def normalize_for_match (filename : String) : String :=
  ⟨pyLower (splitextData filename.data).1⟩

/-- Python `path.lower().endswith(suffix)`: the (already lowercase) suffix
is a suffix of the lowercased character list. -/
def lowerEndsWith (path : String) (suffix : List Char) : Bool :=
  suffix.isSuffixOf (pyLower path.data)

/-! ## The similarity scorer

`src/main.py` calls `thefuzz.fuzz.ratio`, a third-party library whose source
is not part of this repository.  The definitions below are therefore
modelled from the spec. -/

/-- Length of the longest common prefix of two character lists. -/
def lcp : List Char → List Char → Nat
  | x :: xs, y :: ys => if x = y then lcp xs ys + 1 else 0
  | _, _ => 0

/-- One inner step of the longest-matching-block search: try start offset
`j` in `b` against start offset `i` in `a`, keeping the previous best
`(i, j, len)` triple unless this candidate is strictly longer. -/
def bestMatchStep (a b : List Char) (i : Nat) (best : Nat × Nat × Nat) (j : Nat) :
    Nat × Nat × Nat :=
  let l := lcp (a.drop i) (b.drop j)
  if best.2.2 < l then (i, j, l) else best

/-- Modelled from the spec: the longest common contiguous substring of `a`
and `b`, as a triple `(i, j, len)` of start offsets and length (earliest
offsets on ties, `(0, 0, 0)` when there is no common character). -/
def bestMatch (a b : List Char) : Nat × Nat × Nat :=
  (List.range (a.length + 1)).foldl
    (fun best i => (List.range (b.length + 1)).foldl (bestMatchStep a b i) best)
    (0, 0, 0)

/-- Modelled from the spec: total matched-character count `M` of the
recursive longest-matching-block decomposition — find the longest common
contiguous substring, then recurse on the left and right remainders and sum.
`fuel` bounds the recursion depth; `a.length + b.length` always suffices. -/
def matchCountFuel : Nat → List Char → List Char → Nat
  | 0, _, _ => 0
  | fuel + 1, a, b =>
    let m := bestMatch a b
    if m.2.2 = 0 then 0
    else
      m.2.2 + matchCountFuel fuel (a.take m.1) (b.take m.2.1) +
        matchCountFuel fuel (a.drop (m.1 + m.2.2)) (b.drop (m.2.1 + m.2.2))

/-- Total matched-character count `M` between two character lists. -/
def matchCount (a b : List Char) : Nat := matchCountFuel (a.length + b.length) a b

/-- Python `round` of the exact rational `num / den` (`den ≠ 0`):
round half to even. -/
def pyRound (num den : Nat) : Nat :=
  let q := num / den
  let r := num % den
  if 2 * r < den then q
  else if den < 2 * r then q + 1
  else if q % 2 = 0 then q else q + 1

/-- Modelled from the spec: `fuzz.ratio a b = round(100 * 2M / (|a| + |b|))`,
with the empty-vs-empty score defined as `100`. -/
def fuzz_ratio (a b : String) : Nat :=
  let la := a.data.length
  let lb := b.data.length
  if la + lb = 0 then 100
  else pyRound (200 * matchCount a.data b.data) (la + lb)

/-! ## The data model -/

/-- `datetime` values, modelled by their total order with `datetime.min` as
the least element. -/
abbrev DateTime := Nat

/-- `datetime.min`, the minimum representable timestamp. -/
def datetime_min : DateTime := 0

/-- A `(path, mod_time)` tuple as produced by the traversal code. -/
abbrev FileRecord := String × DateTime

/-- A default record, used only to give `List.getD` a value to return at
out-of-range indices (the loops below never index out of range). -/
def dfltRec : FileRecord := ("", datetime_min)

/-- The record at index `j` of the sorted list (`sorted_files[j]` in the
Python loops; the default is never hit at the indices the loops use). -/
def getRec (sorted_files : List FileRecord) (j : Nat) : FileRecord :=
  sorted_files.getD j dfltRec

/-! ## The greedy grouping engine (`group_files` in `src/main.py`) -/

/-- Lexicographic `≤` on code-point sequences, as a boolean: this is how
Python compares the path strings in `sorted(file_list, key=lambda x: x[0])`. -/
def pathLeb : List Char → List Char → Bool
  | [], _ => true
  | _ :: _, [] => false
  | x :: xs, y :: ys => if x = y then pathLeb xs ys else decide (x < y)

/-- Path-wise `≤` between two file records. -/
def fileLe (a b : FileRecord) : Prop := pathLeb a.1.data b.1.data = true

instance : DecidableRel fileLe := fun a b => by
  unfold fileLe; infer_instance

/-- `sorted(file_list, key=lambda x: x[0])`: Python's stable sort by path.
A stable sort's output is uniquely determined by the key order and the input
order, so Mathlib's insertion sort (which is stable for `≤` on the key) is
extensionally the same function. -/
def sortFiles (file_list : List FileRecord) : List FileRecord :=
  file_list.insertionSort fileLe

/-- The per-candidate test of the inner loop of `group_files`: exact match
of normalized names, or fuzzy score at least `threshold`. -/
def matchTest (norm_name : String) (threshold : Nat) (other_path : String) : Bool :=
  let norm_other := normalize_for_match (basename other_path)
  norm_name = norm_other || threshold ≤ fuzz_ratio norm_name norm_other

/-- The inner `for j in range(i+1, len(sorted_files))` loop of `group_files`:
scan the index list `js`, skip indices already in `assigned`, and append each
matching file to `group`, marking its index assigned.  Returns the finished
group and the updated assigned set. -/
def innerLoop (sorted_files : List FileRecord) (threshold : Nat) (norm_name : String) :
    List Nat → List Nat → List FileRecord → List FileRecord × List Nat
  | [], assigned, group => (group, assigned)
  | j :: js, assigned, group =>
    if j ∈ assigned then
      innerLoop sorted_files threshold norm_name js assigned group
    else
      let other_file := getRec sorted_files j
      if matchTest norm_name threshold other_file.1 then
        innerLoop sorted_files threshold norm_name js (j :: assigned)
          (group ++ [other_file])
      else
        innerLoop sorted_files threshold norm_name js assigned group

/-- The outer `for i in range(len(sorted_files))` loop of `group_files`:
each unassigned index starts a new group (its file is the anchor), the inner
loop collects the matches among the later indices, and the finished group is
appended to `groups`. -/
def outerLoop (sorted_files : List FileRecord) (threshold : Nat) :
    List Nat → List Nat → List (List FileRecord) → List (List FileRecord)
  | [], _, groups => groups
  | i :: is, assigned, groups =>
    if i ∈ assigned then
      outerLoop sorted_files threshold is assigned groups
    else
      let current_file := getRec sorted_files i
      let norm_name := normalize_for_match (basename current_file.1)
      let res := innerLoop sorted_files threshold norm_name is (i :: assigned)
        [current_file]
      outerLoop sorted_files threshold is res.2 (groups ++ [res.1])

/-- `group_files` from `src/main.py`: sort by path, then greedily form
groups anchored at each first unassigned index. -/
def group_files (file_list : List FileRecord) (threshold : Nat := 80) :
    List (List FileRecord) :=
  let sorted_files := sortFiles file_list
  outerLoop sorted_files threshold (List.range sorted_files.length) [] []

/-! ## The group summarizer (per-group block of `export_to_excel` /
`scan_files` in `src/main.py`) -/

/-- Python `max(iterable, default=d)` for datetimes. -/
def pyMaxD (l : List DateTime) (d : DateTime) : DateTime :=
  match l with
  | [] => d
  | x :: xs => xs.foldl (fun acc y => if acc < y then y else acc) x

/-- Python `max(group, key=lambda x: x[1])` on a non-empty list: the first
element with the maximum key (Python replaces the running maximum only on a
strictly greater key). -/
def pyMaxByMtime (x : FileRecord) (xs : List FileRecord) : FileRecord :=
  xs.foldl (fun acc y => if acc.2 < y.2 then y else acc) x

/-- The row computed for one group (`data.append({...})` in
`export_to_excel` and `scan_files`). -/
structure GroupSummary where
  fileName : String
  pdfExists : Bool
  wordExists : Bool
  lastModified : DateTime
  allFileNames : String
  deriving Repr, DecidableEq

/-- `", ".join(names)`. -/
def joinCommaSpace (names : List String) : String :=
  String.intercalate ", " names

/-- The summarizer: the per-group body of the export loop in `src/main.py`
(identical in `export_to_excel` and `scan_files`).  On the empty group it
returns the row Python would build after `max(group, ...)` on an empty
sequence raised — the grouping engine never passes one. -/
def summarize (group : List FileRecord) : GroupSummary :=
  let all_names := group.map (fun f => basename f.1)
  let pdf_exists := group.any (fun f => lowerEndsWith f.1 ".pdf".data)
  let word_exists := group.any (fun f =>
    lowerEndsWith f.1 ".doc".data || lowerEndsWith f.1 ".docx".data)
  let last_modified := pyMaxD (group.map (fun f => f.2)) datetime_min
  let most_recent_file :=
    match group with
    | [] => dfltRec
    | x :: xs => pyMaxByMtime x xs
  { fileName := ⟨(splitextData (basenameData most_recent_file.1.data)).1⟩
    pdfExists := pdf_exists
    wordExists := word_exists
    lastModified := last_modified
    allFileNames := joinCommaSpace all_names }

/-! ## The stat wrapper (`get_mod_time` in `src/main.py`) -/

/-- `get_mod_time` from `src/main.py`: the filesystem is abstracted as
`getmtime : String → Option DateTime` (`none` = the stat raised); the
`try/except` returns `datetime.min` on failure. -/
def get_mod_time (getmtime : String → Option DateTime) (path : String) : DateTime :=
  match getmtime path with
  | some ts => ts
  | none => datetime_min

/-! ## Closed form of the inner loop -/

/-- The predicate deciding whether the inner loop adds index `j` to the
current group: not yet assigned, and passing the match test. -/
def acceptP (sorted_files : List FileRecord) (threshold : Nat) (norm_name : String)
    (assigned : List Nat) (j : Nat) : Bool :=
  !decide (j ∈ assigned) && matchTest norm_name threshold (getRec sorted_files j).1

theorem innerLoop_eq (sorted_files : List FileRecord) (threshold : Nat)
    (norm_name : String) (js : List Nat) (assigned : List Nat)
    (group : List FileRecord) (hnd : js.Nodup) :
    innerLoop sorted_files threshold norm_name js assigned group =
      (group ++ (js.filter (acceptP sorted_files threshold norm_name assigned)).map
          (getRec sorted_files),
        (js.filter (acceptP sorted_files threshold norm_name assigned)).reverse ++ assigned) := by
  induction js generalizing assigned group with
  | nil => simp [innerLoop]
  | cons j js ih =>
    have hj : j ∉ js := (List.nodup_cons.mp hnd).1
    have hnd' : js.Nodup := (List.nodup_cons.mp hnd).2
    by_cases hmem : j ∈ assigned
    · have hacc : acceptP sorted_files threshold norm_name assigned j = false := by
        simp [acceptP, hmem]
      simp [innerLoop, if_pos hmem, List.filter_cons, hacc, ih assigned group hnd']
    · by_cases htest :
        matchTest norm_name threshold (getRec sorted_files j).1 = true
      · have hacc : acceptP sorted_files threshold norm_name assigned j = true := by
          simp [acceptP, hmem, htest]
        have hcongr : js.filter (acceptP sorted_files threshold norm_name (j :: assigned)) =
            js.filter (acceptP sorted_files threshold norm_name assigned) := by
          apply List.filter_congr
          intro k hk
          have hkj : k ≠ j := fun h => hj (h ▸ hk)
          simp [acceptP, List.mem_cons, hkj]
        simp only [innerLoop, if_neg hmem, if_pos htest,
          ih (j :: assigned) (group ++ [getRec sorted_files j]) hnd', hcongr,
          List.filter_cons, hacc]
        simp [List.append_assoc]
      · have hacc : acceptP sorted_files threshold norm_name assigned j = false := by
          simp [acceptP, hmem, htest]
        simp [innerLoop, if_neg hmem, if_neg htest, ih assigned group hnd',
          List.filter_cons, hacc]

/-! ## Facts about the outer loop -/

theorem outerLoop_acc (sorted_files : List FileRecord) (threshold : Nat) :
    ∀ (is assigned : List Nat) (groups : List (List FileRecord)),
      outerLoop sorted_files threshold is assigned groups =
        groups ++ outerLoop sorted_files threshold is assigned []
  | [], _, groups => by simp [outerLoop]
  | i :: is, assigned, groups => by
    by_cases hmem : i ∈ assigned
    · simp only [outerLoop, if_pos hmem]
      exact outerLoop_acc sorted_files threshold is assigned groups
    · simp only [outerLoop, if_neg hmem]
      rw [outerLoop_acc sorted_files threshold is _ (groups ++ _),
        outerLoop_acc sorted_files threshold is _ ([] ++ _)]
      simp

/-- Among the still-unprocessed indices, the ones the inner loop accepts
are exactly the unassigned ones passing the match test. -/
theorem filter_accept_eq (sorted_files : List FileRecord) (threshold : Nat)
    (nm : String) (i : Nat) (is assigned : List Nat) (hi : i ∉ is) :
    is.filter (acceptP sorted_files threshold nm (i :: assigned)) =
      (is.filter (fun k => !decide (k ∈ assigned))).filter
        (fun k => matchTest nm threshold (getRec sorted_files k).1) := by
  rw [List.filter_filter]
  apply List.filter_congr
  intro k hk
  have hki : k ≠ i := fun h => hi (h ▸ hk)
  simp [acceptP, hki, Bool.and_comm]

/-- Among the still-unprocessed indices, the ones left unassigned after the
inner loop are exactly the previously unassigned ones failing the match
test. -/
theorem filter_unassigned_eq (sorted_files : List FileRecord) (threshold : Nat)
    (nm : String) (i : Nat) (is assigned : List Nat) (hi : i ∉ is) :
    is.filter (fun k => !decide (k ∈
        (is.filter (acceptP sorted_files threshold nm (i :: assigned))).reverse
          ++ i :: assigned)) =
      (is.filter (fun k => !decide (k ∈ assigned))).filter
        (fun k => !(matchTest nm threshold (getRec sorted_files k).1)) := by
  rw [List.filter_filter]
  apply List.filter_congr
  intro k hk
  have hki : k ≠ i := fun h => hi (h ▸ hk)
  by_cases hka : k ∈ assigned
  · simp [hka]
  · by_cases ht : matchTest nm threshold (getRec sorted_files k).1 = true
    · simp [List.mem_filter, acceptP, hka, hki, hk, ht]
    · simp [List.mem_filter, acceptP, hka, hki, hk, ht]

/-- The multiset of records in the produced groups: the accumulated groups'
records plus one record for each not-yet-assigned index of `is`. -/
theorem outerLoop_flatten_perm (sorted_files : List FileRecord) (threshold : Nat) :
    ∀ (is assigned : List Nat) (groups : List (List FileRecord)), is.Nodup →
      (outerLoop sorted_files threshold is assigned groups).flatten.Perm
        (groups.flatten ++
          (is.filter (fun i => !decide (i ∈ assigned))).map (getRec sorted_files))
  | [], _, groups, _ => by simp [outerLoop]
  | i :: is, assigned, groups, hnd => by
    have hi : i ∉ is := (List.nodup_cons.mp hnd).1
    have hnd' : is.Nodup := (List.nodup_cons.mp hnd).2
    by_cases hmem : i ∈ assigned
    · simpa [outerLoop, if_pos hmem, List.filter_cons, hmem] using
        outerLoop_flatten_perm sorted_files threshold is assigned groups hnd'
    · simp only [outerLoop, if_neg hmem,
        innerLoop_eq sorted_files threshold _ is (i :: assigned) _ hnd']
      refine ((outerLoop_flatten_perm sorted_files threshold is _ _ hnd').trans ?_)
      have hmatched := filter_accept_eq sorted_files threshold
        (normalize_for_match (basename (getRec sorted_files i).1)) i is assigned hi
      have hsplit := filter_unassigned_eq sorted_files threshold
        (normalize_for_match (basename (getRec sorted_files i).1)) i is assigned hi
      simp only [List.flatten_append, List.flatten_cons, List.flatten_nil, List.append_nil,
        List.filter_cons, hmem, Bool.not_false, List.map_cons,
        List.nil_append, List.cons_append, List.append_assoc]
      refine List.Perm.append_left groups.flatten ?_
      refine List.Perm.cons _ ?_
      rw [hsplit, hmatched, ← List.map_append]
      exact (List.filter_append_perm _ _).map (getRec sorted_files)

/-! ## The path order -/

theorem pathLeb_total : ∀ x y : List Char, pathLeb x y = true ∨ pathLeb y x = true
  | [], _ => Or.inl rfl
  | _ :: _, [] => Or.inr rfl
  | x :: xs, y :: ys => by
    by_cases h : x = y
    · subst h
      simpa [pathLeb] using pathLeb_total xs ys
    · rcases lt_or_gt_of_ne h with hlt | hgt
      · left; simp [pathLeb, h, hlt]
      · right; simp [pathLeb, Ne.symm h, hgt]

theorem pathLeb_trans : ∀ {x y z : List Char},
    pathLeb x y = true → pathLeb y z = true → pathLeb x z = true
  | [], _, _, _, _ => rfl
  | _ :: _, [], _, hxy, _ => by simp [pathLeb] at hxy
  | _ :: _, _ :: _, [], _, hyz => by simp [pathLeb] at hyz
  | x :: xs, y :: ys, z :: zs, hxy, hyz => by
    by_cases hxyc : x = y <;> by_cases hyzc : y = z
    · subst hxyc; subst hyzc
      simp only [pathLeb, if_pos rfl] at hxy hyz ⊢
      exact pathLeb_trans hxy hyz
    · subst hxyc
      simpa [pathLeb, hyzc] using hyz
    · subst hyzc
      simpa [pathLeb, hxyc] using hxy
    · simp only [pathLeb, if_neg hxyc, decide_eq_true_eq] at hxy
      simp only [pathLeb, if_neg hyzc, decide_eq_true_eq] at hyz
      have hxz : x < z := lt_trans hxy hyz
      simp [pathLeb, ne_of_lt hxz, hxz]

instance : IsTotal FileRecord fileLe :=
  ⟨fun a b => pathLeb_total a.1.data b.1.data⟩

instance : IsTrans FileRecord fileLe :=
  ⟨fun _ _ _ => pathLeb_trans⟩

/-- `pathLeb` is the ordinary lexicographic `≤` on character lists. -/
theorem pathLeb_iff_not_lex : ∀ x y : List Char,
    pathLeb x y = true ↔ ¬ List.Lex (· < ·) y x
  | [], y => by
    simp only [pathLeb, true_iff]
    intro h
    cases h
  | x :: xs, [] => by
    simp only [pathLeb, Bool.false_eq_true, false_iff, not_not]
    exact List.Lex.nil
  | x :: xs, y :: ys => by
    by_cases h : x = y
    · subst h
      have hred : pathLeb (x :: xs) (x :: ys) = pathLeb xs ys := by simp [pathLeb]
      rw [hred, pathLeb_iff_not_lex xs ys]
      constructor
      · intro hn hl
        cases hl with
        | rel h' => exact absurd h' (lt_irrefl x)
        | cons h' => exact hn h'
      · exact fun hn hl => hn (List.Lex.cons hl)
    · simp only [pathLeb, if_neg h, decide_eq_true_eq]
      constructor
      · intro hlt hl
        cases hl with
        | rel h' => exact absurd (lt_trans h' hlt) (lt_irrefl _)
        | cons _ => exact h rfl
      · intro hn
        rcases lt_or_gt_of_ne h with hlt | hgt
        · exact hlt
        · exact absurd (List.Lex.rel (show y < x from hgt) :
            List.Lex (· < ·) (y :: ys) (x :: xs)) hn

/-- `fileLe` is `≤` on the path strings. -/
theorem fileLe_iff (a b : FileRecord) : fileLe a b ↔ a.1 ≤ b.1 := by
  rw [fileLe, pathLeb_iff_not_lex, String.le_iff_toList_le, ← not_lt]
  exact Iff.rfl

theorem sortFiles_perm (file_list : List FileRecord) :
    (sortFiles file_list).Perm file_list :=
  List.perm_insertionSort fileLe file_list

theorem sortFiles_sorted (file_list : List FileRecord) :
    List.Sorted fileLe (sortFiles file_list) :=
  List.sorted_insertionSort fileLe file_list

/-- Reading every index of a list back off with `getRec` gives the list. -/
theorem map_getRec_range : ∀ l : List FileRecord,
    (List.range l.length).map (getRec l) = l
  | [] => rfl
  | x :: xs => by
    rw [List.length_cons, List.range_succ_eq_map, List.map_cons, List.map_map]
    have h1 : getRec (x :: xs) 0 = x := rfl
    have h2 : (getRec (x :: xs)) ∘ Nat.succ = getRec xs := by
      funext k
      simp [getRec]
    rw [h1, h2, map_getRec_range xs]

/-! ## Structure of the produced groups -/

theorem outerLoop_groups_sound (sorted_files : List FileRecord) (threshold : Nat) :
    ∀ (is assigned : List Nat) (groups : List (List FileRecord)),
      is.Pairwise (· < ·) →
      ∀ g ∈ outerLoop sorted_files threshold is assigned groups,
        g ∈ groups ∨ ∃ idx : List Nat, idx ≠ [] ∧ idx.Pairwise (· < ·) ∧
          (∀ k ∈ idx, k ∈ is) ∧ g = idx.map (getRec sorted_files)
  | [], _, groups, _, g, hg => Or.inl (by simpa [outerLoop] using hg)
  | i :: is, assigned, groups, hps, g, hg => by
    have hi_lt : ∀ k ∈ is, i < k := fun k hk => (List.pairwise_cons.mp hps).1 k hk
    have hps' : is.Pairwise (· < ·) := (List.pairwise_cons.mp hps).2
    have hnd' : is.Nodup := hps'.imp ne_of_lt
    by_cases hmem : i ∈ assigned
    · simp only [outerLoop, if_pos hmem] at hg
      rcases outerLoop_groups_sound sorted_files threshold is assigned groups hps' g hg with
        h | ⟨idx, h1, h2, h3, h4⟩
      · exact Or.inl h
      · exact Or.inr ⟨idx, h1, h2, fun k hk => List.mem_cons_of_mem _ (h3 k hk), h4⟩
    · simp only [outerLoop, if_neg hmem,
        innerLoop_eq sorted_files threshold _ is (i :: assigned) _ hnd'] at hg
      rcases outerLoop_groups_sound sorted_files threshold is _ _ hps' g hg with
        h | ⟨idx, h1, h2, h3, h4⟩
      · rcases List.mem_append.mp h with h | h
        · exact Or.inl h
        · have hgeq : g = (i :: is.filter (acceptP sorted_files threshold
              (normalize_for_match (basename (getRec sorted_files i).1))
              (i :: assigned))).map (getRec sorted_files) := by
            simpa using h
          refine Or.inr ⟨_, List.cons_ne_nil _ _, ?_, ?_, hgeq⟩
          · exact List.pairwise_cons.mpr
              ⟨fun k hk => hi_lt k (List.mem_of_mem_filter hk), hps'.filter _⟩
          · intro k hk
            rcases List.mem_cons.mp hk with h | h
            · exact h ▸ List.mem_cons_self i is
            · exact List.mem_cons_of_mem _ (List.mem_of_mem_filter h)
      · exact Or.inr ⟨idx, h1, h2, fun k hk => List.mem_cons_of_mem _ (h3 k hk), h4⟩

/-- C1: the groups produced by `group_files` partition the input: their
concatenation is a permutation of the input list, so every input record
occurs in the output exactly as often as in the input — nothing is dropped,
nothing is duplicated. -/
theorem group_files_partition (file_list : List FileRecord) (threshold : Nat) :
    (group_files file_list threshold).flatten.Perm file_list := by
  have h := outerLoop_flatten_perm (sortFiles file_list) threshold
    (List.range (sortFiles file_list).length) [] [] (List.nodup_range _)
  have hfe : (List.range (sortFiles file_list).length).filter
      (fun i => !decide (i ∈ ([] : List Nat))) =
      List.range (sortFiles file_list).length := by
    simp
  rw [hfe, map_getRec_range] at h
  simpa [group_files] using h.trans (sortFiles_perm file_list)

theorem getRec_eq_get (l : List FileRecord) (k : Nat) (hk : k < l.length) :
    getRec l k = l.get ⟨k, hk⟩ := by
  rw [getRec, List.getD_eq_getElem l dfltRec hk, List.get_eq_getElem]

/-- C8: on a non-empty input, every group produced by `group_files` is
non-empty (each group contains at least its anchor file). -/
theorem group_files_no_empty_group (file_list : List FileRecord) (threshold : Nat)
    (_hne : file_list ≠ []) :
    ∀ g ∈ group_files file_list threshold, g ≠ [] := by
  intro g hg
  rcases outerLoop_groups_sound (sortFiles file_list) threshold
      (List.range (sortFiles file_list).length) [] []
      (List.pairwise_lt_range _) g (by simpa [group_files] using hg) with
    h | ⟨idx, h1, _, _, h4⟩
  · simp at h
  · subst h4
    simpa using h1

/-- C10: inside every group produced by `group_files`, member paths are in
non-decreasing lexicographic order, and the first member (the anchor) has
the smallest path of the group. -/
theorem group_files_member_order (file_list : List FileRecord) (threshold : Nat) :
    ∀ g ∈ group_files file_list threshold,
      g.Pairwise (fun a b : FileRecord => a.1 ≤ b.1) ∧
      ∀ f ∈ g, ∀ hne : g ≠ [], (g.head hne).1 ≤ f.1 := by
  intro g hg
  rcases outerLoop_groups_sound (sortFiles file_list) threshold
      (List.range (sortFiles file_list).length) [] []
      (List.pairwise_lt_range _) g (by simpa [group_files] using hg) with
    h | ⟨idx, h1, h2, h3, h4⟩
  · simp at h
  · have hb : ∀ k ∈ idx, k < (sortFiles file_list).length :=
      fun k hk => List.mem_range.mp (h3 k hk)
    have hpw : g.Pairwise (fun a b : FileRecord => a.1 ≤ b.1) := by
      subst h4
      rw [List.pairwise_map]
      refine h2.imp_of_mem ?_
      intro a b ha hbm hab
      have hA : a < (sortFiles file_list).length := hb a ha
      have hB : b < (sortFiles file_list).length := hb b hbm
      have hrel : fileLe (getRec (sortFiles file_list) a) (getRec (sortFiles file_list) b) := by
        rw [getRec_eq_get _ _ hA, getRec_eq_get _ _ hB]
        exact (sortFiles_sorted file_list).rel_get_of_lt hab
      exact (fileLe_iff _ _).mp hrel
    refine ⟨hpw, ?_⟩
    intro f hf hne
    cases g with
    | nil => exact absurd rfl hne
    | cons x rest =>
      rcases List.mem_cons.mp hf with rfl | hfr
      · exact le_refl _
      · exact (List.pairwise_cons.mp hpw).1 f hfr

/-! ## The spec's description of the grouping algorithm (for C2)

The following definitions follow the wording of spec §4.3 step by step, so
that `group_files` can be proved to implement exactly that algorithm. -/

/-- Spec §4.3, inner-loop test: the two normalized names are exactly equal
(skip the fuzzy check), or else the fuzzy score reaches the threshold. -/
def specMatches (anchor_norm : String) (threshold : Nat) (f : FileRecord) : Bool :=
  let normalize_j := normalize_for_match (basename f.1)
  anchor_norm = normalize_j || threshold ≤ fuzz_ratio anchor_norm normalize_j

/-- Spec §4.3 step 3: one scan of the later, not-yet-assigned files,
splitting them into the ones the anchor's group absorbs and the ones that
stay unassigned, in order. -/
def specPartition (anchor_norm : String) (threshold : Nat) :
    List FileRecord → List FileRecord × List FileRecord
  | [] => ([], [])
  | f :: fs =>
    let mu := specPartition anchor_norm threshold fs
    if specMatches anchor_norm threshold f then (f :: mu.1, mu.2)
    else (mu.1, f :: mu.2)

theorem specPartition_eq (anchor_norm : String) (threshold : Nat) :
    ∀ fs : List FileRecord,
      specPartition anchor_norm threshold fs =
        (fs.filter (specMatches anchor_norm threshold),
          fs.filter (fun f => !specMatches anchor_norm threshold f))
  | [] => rfl
  | f :: fs => by
    by_cases h : specMatches anchor_norm threshold f = true
    · simp [specPartition, specPartition_eq anchor_norm threshold fs,
        List.filter_cons, h]
    · simp [specPartition, specPartition_eq anchor_norm threshold fs,
        List.filter_cons, h]

theorem specPartition_snd_length (anchor_norm : String) (threshold : Nat)
    (fs : List FileRecord) :
    (specPartition anchor_norm threshold fs).2.length ≤ fs.length := by
  rw [specPartition_eq]
  simpa using List.length_filter_le _ fs

/-- Spec §4.3 steps 2–4 over the already sorted list: the first remaining
file anchors a new group, absorbs every later matching unassigned file, and
the scan continues on the files left over. -/
def specGroupSorted (threshold : Nat) : List FileRecord → List (List FileRecord)
  | [] => []
  | f :: fs =>
    let nm := normalize_for_match (basename f.1)
    (f :: (specPartition nm threshold fs).1) ::
      specGroupSorted threshold (specPartition nm threshold fs).2
termination_by l => l.length
decreasing_by
  simp only [List.length_cons]
  exact Nat.lt_succ_of_le (specPartition_snd_length _ _ _)

/-- Spec §4.3, the whole contract: sort the input by path ascending, then
run the greedy anchor scan. -/
def group_spec (file_list : List FileRecord) (threshold : Nat) :
    List (List FileRecord) :=
  specGroupSorted threshold (sortFiles file_list)

theorem outerLoop_eq_specGroup (sorted_files : List FileRecord) (threshold : Nat) :
    ∀ (is assigned : List Nat) (groups : List (List FileRecord)), is.Nodup →
      outerLoop sorted_files threshold is assigned groups =
        groups ++ specGroupSorted threshold
          ((is.filter (fun k => !decide (k ∈ assigned))).map (getRec sorted_files))
  | [], _, groups, _ => by simp [outerLoop, specGroupSorted]
  | i :: is, assigned, groups, hnd => by
    have hi : i ∉ is := (List.nodup_cons.mp hnd).1
    have hnd' : is.Nodup := (List.nodup_cons.mp hnd).2
    by_cases hmem : i ∈ assigned
    · simpa [outerLoop, if_pos hmem, List.filter_cons, hmem] using
        outerLoop_eq_specGroup sorted_files threshold is assigned groups hnd'
    · simp only [outerLoop, if_neg hmem,
        innerLoop_eq sorted_files threshold _ is (i :: assigned) _ hnd']
      rw [outerLoop_eq_specGroup sorted_files threshold is _ _ hnd']
      have hif : (i :: is).filter (fun k => !decide (k ∈ assigned)) =
          i :: is.filter (fun k => !decide (k ∈ assigned)) := by
        simp [hmem]
      rw [hif, List.map_cons]
      simp only [specGroupSorted]
      have hPm : ((is.filter (fun k => !decide (k ∈ assigned))).map
          (getRec sorted_files)).filter
            (specMatches (normalize_for_match (basename (getRec sorted_files i).1))
              threshold) =
          (is.filter (acceptP sorted_files threshold
            (normalize_for_match (basename (getRec sorted_files i).1))
            (i :: assigned))).map (getRec sorted_files) := by
        rw [List.filter_map, filter_accept_eq sorted_files threshold _ i is assigned hi]
        rfl
      have hPu : ((is.filter (fun k => !decide (k ∈ assigned))).map
          (getRec sorted_files)).filter
            (fun f => !specMatches (normalize_for_match
              (basename (getRec sorted_files i).1)) threshold f) =
          (is.filter (fun k => !decide (k ∈
            (is.filter (acceptP sorted_files threshold
              (normalize_for_match (basename (getRec sorted_files i).1))
              (i :: assigned))).reverse ++ i :: assigned))).map (getRec sorted_files) := by
        rw [List.filter_map, filter_unassigned_eq sorted_files threshold _ i is assigned hi]
        rfl
      rw [specPartition_eq, hPm, hPu]
      simp

/-- C2: `group_files` implements exactly the greedy algorithm of spec §4.3 —
sort by path ascending, then repeatedly let the first unassigned file anchor
a new group that absorbs every later unassigned file whose normalized name
matches exactly or scores at least the threshold, groups returned in
creation order; it is total, and the empty input yields the empty group
list. -/
theorem group_files_eq_spec (file_list : List FileRecord) (threshold : Nat) :
    group_files file_list threshold = group_spec file_list threshold ∧
      group_files [] threshold = [] := by
  constructor
  · rw [group_spec]
    have h := outerLoop_eq_specGroup (sortFiles file_list) threshold
      (List.range (sortFiles file_list).length) [] [] (List.nodup_range _)
    have hfe : (List.range (sortFiles file_list).length).filter
        (fun i => !decide (i ∈ ([] : List Nat))) =
        List.range (sortFiles file_list).length := by
      simp
    rw [hfe, map_getRec_range] at h
    simpa [group_files] using h
  · rfl

/-! ## Equal normalized names always co-group (C3) -/

/-- The normalized basename of the record at index `k` of the sorted list. -/
def nmAt (sorted_files : List FileRecord) (k : Nat) : String :=
  normalize_for_match (basename (getRec sorted_files k).1)

theorem matchTest_nmAt (nm : String) (threshold : Nat)
    (sorted_files : List FileRecord) (k : Nat) :
    matchTest nm threshold (getRec sorted_files k).1 =
      (decide (nm = nmAt sorted_files k) ||
        decide (threshold ≤ fuzz_ratio nm (nmAt sorted_files k))) := rfl

theorem matchTest_congr (nm : String) (threshold : Nat)
    (sorted_files : List FileRecord) {k k' : Nat}
    (h : nmAt sorted_files k = nmAt sorted_files k') :
    matchTest nm threshold (getRec sorted_files k).1 =
      matchTest nm threshold (getRec sorted_files k').1 := by
  rw [matchTest_nmAt, matchTest_nmAt, h]

theorem outerLoop_same_norm (sorted_files : List FileRecord) (threshold : Nat) :
    ∀ (is assigned : List Nat) (groups : List (List FileRecord)),
      is.Nodup →
      (∀ k, k < sorted_files.length → k ∉ assigned → k ∈ is) →
      (∀ k k', k < sorted_files.length → k' < sorted_files.length →
        nmAt sorted_files k = nmAt sorted_files k' →
        ((k ∈ assigned ↔ k' ∈ assigned) ∧
          (k ∈ assigned → ∃ g ∈ groups,
            getRec sorted_files k ∈ g ∧ getRec sorted_files k' ∈ g))) →
      ∀ k k', k < sorted_files.length → k' < sorted_files.length →
        nmAt sorted_files k = nmAt sorted_files k' →
        ∃ g ∈ outerLoop sorted_files threshold is assigned groups,
          getRec sorted_files k ∈ g ∧ getRec sorted_files k' ∈ g
  | [], assigned, groups, _, hcov, hA, k, k', hk, hk', hnm => by
    have hka : k ∈ assigned := by
      by_contra hna
      exact absurd (hcov k hk hna) (List.not_mem_nil k)
    simpa [outerLoop] using (hA k k' hk hk' hnm).2 hka
  | i :: is, assigned, groups, hnd, hcov, hA, k, k', hk, hk', hnm => by
    have hi : i ∉ is := (List.nodup_cons.mp hnd).1
    have hnd' : is.Nodup := (List.nodup_cons.mp hnd).2
    by_cases hmem : i ∈ assigned
    · simp only [outerLoop, if_pos hmem]
      refine outerLoop_same_norm sorted_files threshold is assigned groups hnd'
        ?_ hA k k' hk hk' hnm
      intro j hj hja
      rcases List.mem_cons.mp (hcov j hj hja) with h | h
      · exact absurd (h ▸ hmem) hja
      · exact h
    · simp only [outerLoop, if_neg hmem,
        innerLoop_eq sorted_files threshold _ is (i :: assigned) _ hnd']
      set nmi := normalize_for_match (basename (getRec sorted_files i).1) with hnmi
      set F := is.filter (acceptP sorted_files threshold nmi (i :: assigned)) with hF
      set A' := F.reverse ++ i :: assigned with hA'
      set gnew := getRec sorted_files i :: F.map (getRec sorted_files) with hgnew
      have hiA' : i ∈ A' := by simp [hA']
      have hmemA' : ∀ j, j ∈ A' ↔ (j ∈ F ∨ j = i ∨ j ∈ assigned) := by
        intro j
        simp [hA', List.mem_append, List.mem_reverse, List.mem_cons]
      have hFmem : ∀ j, j ∈ is → j ∉ assigned →
          (j ∈ F ↔ matchTest nmi threshold (getRec sorted_files j).1 = true) := by
        intro j hj hja
        have hji : j ≠ i := fun h => hi (h ▸ hj)
        simp [hF, List.mem_filter, hj, acceptP, hji, hja]
      have hgnewmem : gnew ∈ groups ++ [gnew] := by simp
      refine outerLoop_same_norm sorted_files threshold is A' (groups ++ [gnew]) hnd'
        ?_ ?_ k k' hk hk' hnm
      · intro j hj hja
        have hji : j ≠ i := fun h => hja (h ▸ hiA')
        have hjassigned : j ∉ assigned := fun h => hja ((hmemA' j).mpr (Or.inr (Or.inr h)))
        rcases List.mem_cons.mp (hcov j hj hjassigned) with h | h
        · exact absurd h hji
        · exact h
      · intro p p' hp hp' hpnm
        by_cases hpa : p ∈ assigned
        · have hp'a : p' ∈ assigned := ((hA p p' hp hp' hpnm).1).mp hpa
          refine ⟨by simp [hmemA', hpa, hp'a], fun _ => ?_⟩
          obtain ⟨g, hg, hpg, hp'g⟩ := (hA p p' hp hp' hpnm).2 hpa
          exact ⟨g, List.mem_append_left _ hg, hpg, hp'g⟩
        · have hp'a : p' ∉ assigned := fun h => hpa (((hA p p' hp hp' hpnm).1).mpr h)
          by_cases hpi : p = i
          · by_cases hp'i : p' = i
            · subst hpi; subst hp'i
              exact ⟨Iff.rfl, fun _ => ⟨gnew, hgnewmem, by simp [hgnew], by simp [hgnew]⟩⟩
            · have hp'is : p' ∈ is := by
                rcases List.mem_cons.mp (hcov p' hp' hp'a) with h | h
                · exact absurd h hp'i
                · exact h
              have hp'F : p' ∈ F := by
                rw [hFmem p' hp'is hp'a, matchTest_nmAt]
                have : nmi = nmAt sorted_files p' := by rw [hnmi, ← hpi] at *; exact hpnm
                simp [this]
              refine ⟨?_, fun _ => ?_⟩
              · simp [hmemA', hpi, hp'F]
              · exact ⟨gnew, hgnewmem, by simp [hgnew, hpi],
                  by simp [hgnew]; exact Or.inr ⟨p', hp'F, rfl⟩⟩
          · have hpis : p ∈ is := by
              rcases List.mem_cons.mp (hcov p hp hpa) with h | h
              · exact absurd h hpi
              · exact h
            by_cases hp'i : p' = i
            · have hpF : p ∈ F := by
                rw [hFmem p hpis hpa, matchTest_nmAt]
                have : nmi = nmAt sorted_files p := by rw [hnmi, ← hp'i] at *; exact hpnm.symm
                simp [this]
              refine ⟨?_, fun _ => ?_⟩
              · simp [hmemA', hp'i, hpF]
              · exact ⟨gnew, hgnewmem, by simp [hgnew]; exact Or.inr ⟨p, hpF, rfl⟩,
                  by simp [hgnew, hp'i]⟩
            · have hp'is : p' ∈ is := by
                rcases List.mem_cons.mp (hcov p' hp' hp'a) with h | h
                · exact absurd h hp'i
                · exact h
              have htest := matchTest_congr nmi threshold sorted_files hpnm
              by_cases ht : matchTest nmi threshold (getRec sorted_files p).1 = true
              · have hpF : p ∈ F := (hFmem p hpis hpa).mpr ht
                have hp'F : p' ∈ F := (hFmem p' hp'is hp'a).mpr (htest ▸ ht)
                refine ⟨by simp [hmemA', hpF, hp'F], fun _ => ?_⟩
                exact ⟨gnew, hgnewmem,
                  by simp [hgnew]; exact Or.inr ⟨p, hpF, rfl⟩,
                  by simp [hgnew]; exact Or.inr ⟨p', hp'F, rfl⟩⟩
              · have hpF : p ∉ F := fun h => ht ((hFmem p hpis hpa).mp h)
                have hp'F : p' ∉ F := fun h => (htest ▸ ht) ((hFmem p' hp'is hp'a).mp h)
                refine ⟨by simp [hmemA', hpF, hp'F, hpi, hp'i, hpa, hp'a], fun h => ?_⟩
                exact absurd ((hmemA' p).mp h)
                  (by simp [hpF, hpi, hpa])

/-- C3: two input files whose normalized basenames (extension stripped,
lowercased) are exactly equal are always placed in the same group by
`group_files`, regardless of the threshold. -/
theorem group_files_same_norm_same_group (file_list : List FileRecord)
    (threshold : Nat) (a b : FileRecord) (ha : a ∈ file_list) (hb : b ∈ file_list)
    (hnorm : normalize_for_match (basename a.1) = normalize_for_match (basename b.1)) :
    ∃ g ∈ group_files file_list threshold, a ∈ g ∧ b ∈ g := by
  have ha' : a ∈ sortFiles file_list := ((sortFiles_perm file_list).mem_iff).mpr ha
  have hb' : b ∈ sortFiles file_list := ((sortFiles_perm file_list).mem_iff).mpr hb
  obtain ⟨ka, hka⟩ := List.mem_iff_get.mp ha'
  obtain ⟨kb, hkb⟩ := List.mem_iff_get.mp hb'
  have hga : getRec (sortFiles file_list) ka.val = a :=
    (getRec_eq_get _ _ ka.isLt).trans (by rw [Fin.eta]; exact hka)
  have hgb : getRec (sortFiles file_list) kb.val = b :=
    (getRec_eq_get _ _ kb.isLt).trans (by rw [Fin.eta]; exact hkb)
  have hmain := outerLoop_same_norm (sortFiles file_list) threshold
    (List.range (sortFiles file_list).length) [] []
    (List.nodup_range _)
    (fun k hk _ => List.mem_range.mpr hk)
    (fun k k' _ _ _ => ⟨iff_of_false (List.not_mem_nil _) (List.not_mem_nil _),
      fun h => absurd h (List.not_mem_nil _)⟩)
    ka.val kb.val ka.isLt kb.isLt
    (by rw [nmAt, nmAt, hga, hgb]; exact hnorm)
  rw [hga, hgb] at hmain
  simpa [group_files] using hmain

/-! ## The stat wrapper is total (C9) -/

/-- C9: `get_mod_time` is total — on a successful stat it returns the
stat's timestamp, and when the stat raises it returns `datetime.min`
instead of propagating the error. -/
theorem get_mod_time_total (getmtime : String → Option DateTime) (path : String) :
    (∀ ts, getmtime path = some ts → get_mod_time getmtime path = ts) ∧
      (getmtime path = none → get_mod_time getmtime path = datetime_min) := by
  constructor
  · intro ts h
    simp [get_mod_time, h]
  · intro h
    simp [get_mod_time, h]

/-! ## Threshold monotonicity (C4) -/

/-- The match test is antitone in the threshold: whatever matches an anchor
at a higher threshold also matches it at a lower one. -/
theorem matchTest_antitone (nm : String) {t1 t2 : Nat} (h : t1 ≤ t2)
    (p : String) (hm : matchTest nm t2 p = true) : matchTest nm t1 p = true := by
  rw [matchTest, Bool.or_eq_true] at hm ⊢
  rcases hm with hm | hm
  · exact Or.inl hm
  · exact Or.inr (by
      rw [decide_eq_true_eq] at hm ⊢
      exact le_trans h hm)

theorem outerLoop_head? (sorted_files : List FileRecord) (threshold : Nat)
    (is assigned : List Nat) (g : List FileRecord) (gs : List (List FileRecord)) :
    (outerLoop sorted_files threshold is assigned (g :: gs)).head? = some g := by
  rw [outerLoop_acc]
  simp

/-- On a non-empty input the first produced group is the anchor at index 0
together with the later indices passing the match test. -/
theorem group_files_head (file_list : List FileRecord) (threshold : Nat)
    (hne : file_list ≠ []) :
    (group_files file_list threshold).head? = some
      (getRec (sortFiles file_list) 0 ::
        ((List.range (sortFiles file_list).length).drop 1 |>.filter
          (acceptP (sortFiles file_list) threshold
            (normalize_for_match (basename (getRec (sortFiles file_list) 0).1)) [0])).map
          (getRec (sortFiles file_list))) := by
  have hlen : sortFiles file_list ≠ [] := by
    intro h
    exact hne ((h ▸ sortFiles_perm file_list : ([] : List FileRecord).Perm file_list)).symm.eq_nil
  obtain ⟨n, hn⟩ : ∃ n, (sortFiles file_list).length = n + 1 :=
    Nat.exists_eq_succ_of_ne_zero (by simpa using hlen)
  have hr : List.range (sortFiles file_list).length =
      0 :: (List.range (sortFiles file_list).length).drop 1 := by
    rw [hn, List.range_succ_eq_map]
    simp
  have hnd : ((List.range (sortFiles file_list).length).drop 1).Nodup :=
    (List.nodup_range _).sublist (List.drop_sublist _ _)
  rw [group_files]
  conv_lhs => rw [hr]
  rw [outerLoop]
  simp only [if_neg (List.not_mem_nil 0)]
  rw [innerLoop_eq _ _ _ _ _ _ hnd]
  exact outerLoop_head? _ _ _ _ _ _

/-- C4 (amended): holding the anchor fixed, raising the threshold never adds
a file to the anchor's group; in particular every file of the first group at
the higher threshold is in the first group at the lower threshold.  (For
later groups, raising the threshold changes which files become anchors and
can merge two previously separate files — see the counterexample.) -/
theorem group_files_first_group_antitone (file_list : List FileRecord)
    {t1 t2 : Nat} (hle : t1 ≤ t2) (g1 g2 : List FileRecord)
    (h1 : (group_files file_list t1).head? = some g1)
    (h2 : (group_files file_list t2).head? = some g2) :
    ∀ f ∈ g2, f ∈ g1 := by
  rcases eq_or_ne file_list [] with rfl | hne
  · rw [show group_files [] t1 = [] from rfl] at h1
    exact absurd h1 (by simp)
  · rw [group_files_head file_list t1 hne] at h1
    rw [group_files_head file_list t2 hne] at h2
    obtain rfl := Option.some_injective _ h1.symm
    obtain rfl := Option.some_injective _ h2.symm
    intro f hf
    rcases List.mem_cons.mp hf with rfl | hf
    · exact List.mem_cons_self _ _
    · obtain ⟨j, hj, rfl⟩ := List.mem_map.mp hf
      obtain ⟨hjmem, hjacc⟩ := List.mem_filter.mp hj
      rw [acceptP, Bool.and_eq_true] at hjacc
      refine List.mem_cons_of_mem _ (List.mem_map.mpr ⟨j, List.mem_filter.mpr
        ⟨hjmem, ?_⟩, rfl⟩)
      rw [acceptP, Bool.and_eq_true]
      exact ⟨hjacc.1, matchTest_antitone _ hle _ hjacc.2⟩

/-- C4 counterexample: with input files `ab`, `bc`, `bcd` (no extensions),
`bc` and `bcd` are in different groups at threshold 50 (the anchor `ab`
absorbs `bc`, score 50, but not `bcd`, score 40) yet in the same group at
the higher threshold 60 (`ab` absorbs nothing, so `bc` anchors a group and
absorbs `bcd`, score 80) — raising the threshold merged two files that were
previously separate, refuting the claim as stated. -/
theorem group_files_threshold_not_monotone :
    (50 : Nat) < 60 ∧
    (∀ g ∈ group_files [("ab", 0), ("bc", 0), ("bcd", 0)] 50,
      ¬(("bc", (0 : Nat)) ∈ g ∧ ("bcd", (0 : Nat)) ∈ g)) ∧
    (∃ g ∈ group_files [("ab", 0), ("bc", 0), ("bcd", 0)] 60,
      ("bc", (0 : Nat)) ∈ g ∧ ("bcd", (0 : Nat)) ∈ g) := by
  decide

/-! ## The summarizer (C5) -/

/-- "The path, case-insensitively, ends with the suffix": lowercased, some
prefix followed by the lowercased suffix. -/
def endsWithCI (s : String) (suffix : String) : Prop :=
  ∃ pre, pre ++ pyLower suffix.data = pyLower s.data

theorem lowerEndsWith_iff (s : String) (suffix : String)
    (hsuf : pyLower suffix.data = suffix.data) :
    lowerEndsWith s suffix.data = true ↔ endsWithCI s suffix := by
  rw [lowerEndsWith, List.isSuffixOf_iff_suffix, endsWithCI, hsuf]
  exact Iff.rfl

theorem find?_congr_mem {α : Type} {p q : α → Bool} :
    ∀ {l : List α}, (∀ a ∈ l, p a = q a) → l.find? p = l.find? q
  | [], _ => rfl
  | a :: l, h => by
    have ha := h a (List.mem_cons_self a l)
    cases hpa : p a with
    | true =>
      rw [List.find?_cons_of_pos _ hpa, List.find?_cons_of_pos _ (ha ▸ hpa)]
    | false =>
      have hqa : ¬ q a = true := by rw [← ha, hpa]; exact Bool.false_ne_true
      rw [List.find?_cons_of_neg _ (by rw [hpa]; exact Bool.false_ne_true),
        List.find?_cons_of_neg _ hqa,
        find?_congr_mem (fun b hb => h b (List.mem_cons_of_mem a hb))]

/-- Python's `max(group, key=lambda x: x[1])` returns the earliest member
whose modification time is maximal. -/
theorem pyMaxByMtime_find? (x : FileRecord) (xs : List FileRecord) :
    (x :: xs).find? (fun f => decide (∀ y ∈ x :: xs, y.2 ≤ f.2)) =
      some (pyMaxByMtime x xs) := by
  induction xs generalizing x with
  | nil =>
    rw [List.find?_cons_of_pos _ (by simp)]
    rfl
  | cons y ys ih =>
    by_cases hxy : x.2 < y.2
    · have hstep : pyMaxByMtime x (y :: ys) = pyMaxByMtime y ys := by
        simp [pyMaxByMtime, hxy]
      have hpq : ∀ f : FileRecord,
          (decide (∀ z ∈ x :: y :: ys, z.2 ≤ f.2) : Bool) =
            decide (∀ z ∈ y :: ys, z.2 ≤ f.2) := by
        intro f
        apply decide_eq_decide.mpr
        constructor
        · intro hall z hz
          exact hall z (List.mem_cons_of_mem x hz)
        · intro hall z hz
          rcases List.mem_cons.mp hz with rfl | hz
          · exact le_trans (le_of_lt hxy) (hall y (List.mem_cons_self y ys))
          · exact hall z hz
      have hx : ¬ ((decide (∀ z ∈ x :: y :: ys, z.2 ≤ x.2) : Bool) = true) := by
        rw [decide_eq_true_eq]
        intro hall
        exact absurd (hall y (List.mem_cons_of_mem x (List.mem_cons_self y ys)))
          (not_le_of_lt hxy)
      rw [hstep, @List.find?_cons_of_neg _ (fun f => decide (∀ z ∈ x :: y :: ys, z.2 ≤ f.2))
        x (y :: ys) hx, find?_congr_mem (fun a _ => hpq a), ih y]
    · have hyx : y.2 ≤ x.2 := le_of_not_lt hxy
      have hstep : pyMaxByMtime x (y :: ys) = pyMaxByMtime x ys := by
        simp [pyMaxByMtime, hxy]
      have hpq : ∀ f : FileRecord,
          (decide (∀ z ∈ x :: y :: ys, z.2 ≤ f.2) : Bool) =
            decide (∀ z ∈ x :: ys, z.2 ≤ f.2) := by
        intro f
        apply decide_eq_decide.mpr
        constructor
        · intro hall z hz
          rcases List.mem_cons.mp hz with rfl | hz
          · exact hall z (List.mem_cons_self z _)
          · exact hall z (List.mem_cons_of_mem x (List.mem_cons_of_mem y hz))
        · intro hall z hz
          have hxf : x.2 ≤ f.2 := hall x (List.mem_cons_self x ys)
          rcases List.mem_cons.mp hz with rfl | hz
          · exact hxf
          · rcases List.mem_cons.mp hz with rfl | hz
            · exact le_trans hyx hxf
            · exact hall z (List.mem_cons_of_mem x hz)
      rw [hstep, ← ih x]
      cases hqx : (decide (∀ z ∈ x :: ys, z.2 ≤ x.2) : Bool) with
      | true =>
        rw [@List.find?_cons_of_pos _ (fun f => decide (∀ z ∈ x :: y :: ys, z.2 ≤ f.2))
          x (y :: ys) (by show decide (∀ z ∈ x :: y :: ys, z.2 ≤ x.2) = true
                          rw [hpq x]; exact hqx),
          @List.find?_cons_of_pos _ (fun f => decide (∀ z ∈ x :: ys, z.2 ≤ f.2)) x ys hqx]
      | false =>
        have hqx' : ¬ ((decide (∀ z ∈ x :: ys, z.2 ≤ x.2) : Bool) = true) := by
          rw [hqx]; exact Bool.false_ne_true
        have hpx : ¬ ((decide (∀ z ∈ x :: y :: ys, z.2 ≤ x.2) : Bool) = true) := by
          rw [hpq x]; exact hqx'
        have hqy : ¬ ((decide (∀ z ∈ x :: ys, z.2 ≤ y.2) : Bool) = true) := by
          rw [decide_eq_true_eq]
          intro hall
          exact (decide_eq_false_iff_not.mp hqx)
            (fun z hz => le_trans (hall z hz) hyx)
        have hpy : ¬ ((decide (∀ z ∈ x :: y :: ys, z.2 ≤ y.2) : Bool) = true) := by
          rw [hpq y]; exact hqy
        rw [@List.find?_cons_of_neg _ (fun f => decide (∀ z ∈ x :: y :: ys, z.2 ≤ f.2))
            x (y :: ys) hpx,
          @List.find?_cons_of_neg _ (fun f => decide (∀ z ∈ x :: y :: ys, z.2 ≤ f.2))
            y ys hpy,
          @List.find?_cons_of_neg _ (fun f => decide (∀ z ∈ x :: ys, z.2 ≤ f.2)) x ys hqx',
          find?_congr_mem (fun a ha => hpq a)]

/-- The mtime of Python's `max(group, key=...)` is Python's
`max(mtimes, default=min)`. -/
theorem pyMaxByMtime_snd (x : FileRecord) (xs : List FileRecord) :
    (pyMaxByMtime x xs).2 =
      pyMaxD ((x :: xs).map (fun f => f.2)) datetime_min := by
  induction xs generalizing x with
  | nil => rfl
  | cons y ys ih =>
    have hstep : pyMaxByMtime x (y :: ys) = pyMaxByMtime (if x.2 < y.2 then y else x) ys := by
      rw [pyMaxByMtime, pyMaxByMtime, List.foldl_cons]
    have hstep2 : pyMaxD ((x :: y :: ys).map (fun f => f.2)) datetime_min =
        pyMaxD (((if x.2 < y.2 then y else x) :: ys).map (fun f => f.2)) datetime_min := by
      by_cases hxy : x.2 < y.2 <;>
        simp [pyMaxD, List.foldl_cons, hxy]
    rw [hstep, hstep2, ih]

/-- C5: for a non-empty group the summary row satisfies its spec:
`File Name` is the extension-stripped basename of the earliest member with
maximal `modifiedAt` (ties favour the first such member); `PDF Exists` holds
iff some member's path case-insensitively ends with `.pdf`; `Word Doc
Exists` holds iff some member's path case-insensitively ends with `.doc` or
`.docx`; `Last Modified` is the maximum `modifiedAt` over the members; and
`All File Names` joins the members' basenames, in member order, with
`", "`. -/
theorem summarize_spec (g : List FileRecord) (hg : g ≠ []) :
    (∃ m, g.find? (fun f => decide (∀ y ∈ g, y.2 ≤ f.2)) = some m ∧
      m ∈ g ∧ (∀ f ∈ g, f.2 ≤ m.2) ∧
      (summarize g).fileName = ⟨(splitextData (basenameData m.1.data)).1⟩ ∧
      (summarize g).lastModified = m.2) ∧
    ((summarize g).pdfExists = true ↔ ∃ f ∈ g, endsWithCI f.1 ".pdf") ∧
    ((summarize g).wordExists = true ↔
      ∃ f ∈ g, endsWithCI f.1 ".doc" ∨ endsWithCI f.1 ".docx") ∧
    (summarize g).allFileNames = joinCommaSpace (g.map (fun f => basename f.1)) := by
  cases g with
  | nil => exact absurd rfl hg
  | cons x xs =>
    refine ⟨⟨pyMaxByMtime x xs, pyMaxByMtime_find? x xs, ?_, ?_, rfl, ?_⟩, ?_, ?_, rfl⟩
    · exact List.mem_of_find?_eq_some (pyMaxByMtime_find? x xs)
    · have h := List.find?_some (pyMaxByMtime_find? x xs)
      exact of_decide_eq_true h
    · exact (pyMaxByMtime_snd x xs).symm
    · show ((x :: xs).any fun f => lowerEndsWith f.1 ".pdf".data) = true ↔ _
      rw [List.any_eq_true]
      constructor
      · rintro ⟨f, hf, hp⟩
        exact ⟨f, hf, (lowerEndsWith_iff f.1 ".pdf" (by decide)).mp hp⟩
      · rintro ⟨f, hf, hp⟩
        exact ⟨f, hf, (lowerEndsWith_iff f.1 ".pdf" (by decide)).mpr hp⟩
    · show ((x :: xs).any fun f =>
          lowerEndsWith f.1 ".doc".data || lowerEndsWith f.1 ".docx".data) = true ↔ _
      rw [List.any_eq_true]
      constructor
      · rintro ⟨f, hf, hp⟩
        rw [Bool.or_eq_true] at hp
        rcases hp with h | h
        · exact ⟨f, hf, Or.inl ((lowerEndsWith_iff f.1 ".doc" (by decide)).mp h)⟩
        · exact ⟨f, hf, Or.inr ((lowerEndsWith_iff f.1 ".docx" (by decide)).mp h)⟩
      · rintro ⟨f, hf, h⟩
        refine ⟨f, hf, ?_⟩
        rw [Bool.or_eq_true]
        rcases h with h | h
        · exact Or.inl ((lowerEndsWith_iff f.1 ".doc" (by decide)).mpr h)
        · exact Or.inr ((lowerEndsWith_iff f.1 ".docx" (by decide)).mpr h)

/-! ## The normalizer (C6) -/

theorem rfindIdx_lt_length (c : Char) : ∀ {l : List Char} {k : Nat},
    rfindIdx c l = some k → k < l.length
  | [], k, h => by simp [rfindIdx] at h
  | x :: xs, k, h => by
    rw [rfindIdx] at h
    cases hx : rfindIdx c xs with
    | some j =>
      rw [hx] at h
      obtain rfl : j + 1 = k := by simpa using h
      exact Nat.succ_lt_succ (rfindIdx_lt_length c hx)
    | none =>
      rw [hx] at h
      by_cases hxc : x = c
      · obtain rfl : 0 = k := by simpa [hxc] using h
        simp
      · simp [hxc] at h

theorem rfindIdx_append (c : Char) : ∀ (xs ys : List Char),
    rfindIdx c (xs ++ ys) =
      match rfindIdx c ys with
      | some j => some (xs.length + j)
      | none => rfindIdx c xs
  | [], ys => by
    cases h : rfindIdx c ys <;> simp [h, rfindIdx]
  | x :: xs, ys => by
    rw [List.cons_append, rfindIdx, rfindIdx_append c xs ys]
    cases h : rfindIdx c ys with
    | some j =>
      simp only [List.length_cons]
      congr 1
      omega
    | none =>
      rw [rfindIdx]

/-- The claim's literal reading of `normalize`: if the base name contains a
dot at all, drop the final dot and everything after it, then lowercase. -/
def normalize_claim (filename : String) : String :=
  let base := basenameData filename.data
  match rfindIdx '.' base with
  | none => ⟨pyLower filename.data⟩
  | some d => ⟨pyLower (filename.data.take (filename.data.length - (base.length - d)))⟩

/-- Modelled from the amended claim: strip the last extension — the text
from the final dot of the base name on — provided at least one earlier
character of the base name is not itself a dot; a base name of leading dots
only (such as `.bashrc`) is kept whole.  Lowercase the result. -/
def normalize_amended (filename : String) : String :=
  let base := basenameData filename.data
  match rfindIdx '.' base with
  | none => ⟨pyLower filename.data⟩
  | some d =>
    if (base.take d).any (fun c => c ≠ '.') then
      ⟨pyLower (filename.data.take (filename.data.length - (base.length - d)))⟩
    else ⟨pyLower filename.data⟩

/-- C6 counterexample: on `".bashrc"` the code keeps the whole name (Python
`splitext` never treats a leading-dot-only prefix as a stem), while the
claim's literal reading strips everything from the final dot on. -/
theorem normalize_claim_counterexample :
    normalize_for_match ".bashrc" = ".bashrc" ∧ normalize_claim ".bashrc" = "" ∧
      normalize_for_match ".bashrc" ≠ normalize_claim ".bashrc" := by
  refine ⟨rfl, rfl, ?_⟩
  decide

/-- C6 (amended): `normalize_for_match` strips the last extension — the text
from the final `'.'` of the base name on — exactly when some earlier
character of the base name is not a dot, and lowercases; otherwise (no dot,
or only leading dots) it lowercases the whole name.  In particular it is
total, and empty or extension-less names come back whole, lowercased. -/
theorem normalize_for_match_amended (s : String) :
    normalize_for_match s = normalize_amended s := by
  rw [normalize_for_match, normalize_amended]
  cases hsep : rfindIdx '/' s.data with
  | none =>
    simp only [basenameData, hsep]
    cases hdot : rfindIdx '.' s.data with
    | none => simp [splitextData, hdot]
    | some d =>
      have hd : d < s.data.length := rfindIdx_lt_length '.' hdot
      simp only [splitextData, hdot, hsep]
      have h0 : s.data.length - (s.data.length - d) = d := by omega
      by_cases hc : ((s.data.drop 0).take (d - 0)).any (fun c => decide (c ≠ '.')) = true
      · rw [if_pos hc, if_pos (by simpa using hc), h0]
      · rw [if_neg hc, if_neg (by simpa using hc)]
  | some k =>
    have hk : k < s.data.length := rfindIdx_lt_length '/' hsep
    have hsplit : s.data = s.data.take (k + 1) ++ s.data.drop (k + 1) :=
      (List.take_append_drop _ _).symm
    have hlen : (s.data.take (k + 1)).length = k + 1 := by
      rw [List.length_take]
      omega
    simp only [basenameData, hsep]
    cases hbd : rfindIdx '.' (s.data.drop (k + 1)) with
    | none =>
      have hdot : rfindIdx '.' s.data = rfindIdx '.' (s.data.take (k + 1)) := by
        conv_lhs => rw [hsplit]
        rw [rfindIdx_append, hbd]
      cases htk : rfindIdx '.' (s.data.take (k + 1)) with
      | none => simp [splitextData, hdot, htk]
      | some d =>
        have hd : d < k + 1 := hlen ▸ rfindIdx_lt_length '.' htk
        have hcond : ((s.data.drop (k + 1)).take (d - (k + 1))).any
            (fun c => decide (c ≠ '.')) = false := by
          have : d - (k + 1) = 0 := by omega
          rw [this]
          simp
        simp only [splitextData, hdot, htk, hsep, hcond]
        rw [if_neg (by simp)]
    | some j =>
      have hj : j < (s.data.drop (k + 1)).length := rfindIdx_lt_length '.' hbd
      have hjlen : j < s.data.length - (k + 1) := by
        simpa using hj
      have hdot : rfindIdx '.' s.data = some (k + 1 + j) := by
        conv_lhs => rw [hsplit]
        rw [rfindIdx_append, hbd, hlen]
      have harith : k + 1 + j - (k + 1) = j := by omega
      have harith2 : s.data.length - ((s.data.drop (k + 1)).length - j) = k + 1 + j := by
        rw [List.length_drop]
        omega
      simp only [splitextData, hdot, hsep, harith]
      by_cases hc : ((s.data.drop (k + 1)).take j).any (fun c => decide (c ≠ '.')) = true
      · rw [if_pos hc, if_pos hc, harith2]
      · rw [if_neg hc, if_neg hc]

/-! ## Bounds on the similarity scorer (C7) -/

theorem lcp_le_left : ∀ a b : List Char, lcp a b ≤ a.length
  | [], _ => by simp [lcp]
  | _ :: _, [] => by simp [lcp]
  | x :: xs, y :: ys => by
    rw [lcp]
    by_cases h : x = y
    · simpa [h] using lcp_le_left xs ys
    · simp [h]

theorem lcp_le_right : ∀ a b : List Char, lcp a b ≤ b.length
  | [], _ => by simp [lcp]
  | _ :: _, [] => by simp [lcp]
  | x :: xs, y :: ys => by
    rw [lcp]
    by_cases h : x = y
    · simpa [h] using lcp_le_right xs ys
    · simp [h]

theorem lcp_self : ∀ a : List Char, lcp a a = a.length
  | [] => rfl
  | x :: xs => by
    rw [lcp, if_pos rfl, lcp_self xs]
    rfl

theorem foldl_preserve {α β : Type} (P : β → Prop) (f : β → α → β) :
    ∀ (l : List α) (init : β), P init →
      (∀ acc x, x ∈ l → P acc → P (f acc x)) → P (l.foldl f init)
  | [], _, h, _ => h
  | x :: l, init, h, hstep =>
    foldl_preserve P f l (f init x) (hstep init x (List.mem_cons_self x l) h)
      (fun acc y hy hacc => hstep acc y (List.mem_cons_of_mem x hy) hacc)

/-- Validity of the best-match triple: offsets are in range and the block
fits inside both remainders. -/
theorem bestMatch_valid (a b : List Char) :
    (bestMatch a b).1 ≤ a.length ∧ (bestMatch a b).2.1 ≤ b.length ∧
      (bestMatch a b).2.2 ≤ a.length - (bestMatch a b).1 ∧
      (bestMatch a b).2.2 ≤ b.length - (bestMatch a b).2.1 := by
  have h := foldl_preserve
    (fun p : Nat × Nat × Nat => p.1 ≤ a.length ∧ p.2.1 ≤ b.length ∧
      p.2.2 ≤ a.length - p.1 ∧ p.2.2 ≤ b.length - p.2.1)
    (fun best i => (List.range (b.length + 1)).foldl (bestMatchStep a b i) best)
    (List.range (a.length + 1)) (0, 0, 0) (by simp)
    ?_
  · exact h
  · intro acc i hi hacc
    have hia : i ≤ a.length := by
      have := List.mem_range.mp hi
      omega
    refine foldl_preserve
      (fun p : Nat × Nat × Nat => p.1 ≤ a.length ∧ p.2.1 ≤ b.length ∧
        p.2.2 ≤ a.length - p.1 ∧ p.2.2 ≤ b.length - p.2.1)
      (bestMatchStep a b i) (List.range (b.length + 1)) acc hacc ?_
    intro best j hj hbest
    have hjb : j ≤ b.length := by
      have := List.mem_range.mp hj
      omega
    rw [bestMatchStep]
    by_cases hlt : best.2.2 < lcp (a.drop i) (b.drop j)
    · rw [if_pos hlt]
      refine ⟨hia, hjb, ?_, ?_⟩
      · have := lcp_le_left (a.drop i) (b.drop j)
        simpa using this
      · have := lcp_le_right (a.drop i) (b.drop j)
        simpa using this
    · rw [if_neg hlt]
      exact hbest

/-- Each best-match step can only lengthen the recorded block. -/
theorem bestMatchStep_mono (a b : List Char) (i : Nat) (best : Nat × Nat × Nat)
    (j : Nat) : best.2.2 ≤ (bestMatchStep a b i best j).2.2 := by
  rw [bestMatchStep]
  by_cases hlt : best.2.2 < lcp (a.drop i) (b.drop j)
  · rw [if_pos hlt]
    exact le_of_lt hlt
  · rw [if_neg hlt]

theorem foldl_step_ge (a b : List Char) (i : Nat) (l : List Nat)
    (init : Nat × Nat × Nat) (v : Nat) (hinit : v ≤ init.2.2) :
    v ≤ (l.foldl (bestMatchStep a b i) init).2.2 :=
  foldl_preserve (fun p : Nat × Nat × Nat => v ≤ p.2.2) _ l init hinit
    (fun best j _ hbest => le_trans hbest (bestMatchStep_mono a b i best j))

/-- The best-match block is at least as long as the common prefix of the
whole lists (the `(0, 0)` candidate considered first). -/
theorem bestMatch_ge_lcp (a b : List Char) : lcp a b ≤ (bestMatch a b).2.2 := by
  rw [bestMatch,
    show List.range (a.length + 1) = 0 :: List.map Nat.succ (List.range a.length) from
      List.range_succ_eq_map a.length,
    List.foldl_cons]
  have hbase : lcp a b ≤
      ((List.range (b.length + 1)).foldl (bestMatchStep a b 0) (0, 0, 0)).2.2 := by
    rw [show List.range (b.length + 1) = 0 :: List.map Nat.succ (List.range b.length) from
      List.range_succ_eq_map b.length, List.foldl_cons]
    have hstep0 : lcp a b ≤ (bestMatchStep a b 0 (0, 0, 0) 0).2.2 := by
      rw [bestMatchStep]
      simp only [List.drop_zero]
      by_cases h0 : ((0, 0, (0 : Nat)) : Nat × Nat × Nat).2.2 < lcp a b
      · rw [if_pos h0]
      · rw [if_neg h0]
        show lcp a b ≤ 0
        have h0' : ¬ 0 < lcp a b := h0
        omega
    exact foldl_step_ge a b 0 _ _ _ hstep0
  exact foldl_preserve (fun p : Nat × Nat × Nat => lcp a b ≤ p.2.2)
    _ _ _ hbase (fun acc i _ hacc => foldl_step_ge a b i _ acc _ hacc)

/-- The total matched-character count never exceeds either length. -/
theorem matchCountFuel_le : ∀ (fuel : Nat) (a b : List Char),
    matchCountFuel fuel a b ≤ a.length ∧ matchCountFuel fuel a b ≤ b.length
  | 0, _, _ => by simp [matchCountFuel]
  | fuel + 1, a, b => by
    rw [matchCountFuel]
    by_cases hz : (bestMatch a b).2.2 = 0
    · rw [if_pos hz]
      simp
    · rw [if_neg hz]
      obtain ⟨hia, hjb, hla, hlb⟩ := bestMatch_valid a b
      obtain ⟨hL1, hL2⟩ := matchCountFuel_le fuel (a.take (bestMatch a b).1)
        (b.take (bestMatch a b).2.1)
      obtain ⟨hR1, hR2⟩ := matchCountFuel_le fuel
        (a.drop ((bestMatch a b).1 + (bestMatch a b).2.2))
        (b.drop ((bestMatch a b).2.1 + (bestMatch a b).2.2))
      rw [List.length_take] at hL1 hL2
      rw [List.length_drop] at hR1 hR2
      constructor
      · omega
      · omega

theorem matchCountFuel_nil (fuel : Nat) : matchCountFuel fuel [] [] = 0 :=
  Nat.le_zero.mp (by simpa using (matchCountFuel_le fuel [] []).1)

/-- On a non-empty list matched against itself, the best match is the whole
list. -/
theorem bestMatch_self (a : List Char) (ha : a ≠ []) :
    bestMatch a a = (0, 0, a.length) := by
  have hlen : 0 < a.length := List.length_pos.mpr ha
  obtain ⟨h1, h2, h3, h4⟩ := bestMatch_valid a a
  have hge : a.length ≤ (bestMatch a a).2.2 := by
    rw [← lcp_self a]
    exact bestMatch_ge_lcp a a
  have hi : (bestMatch a a).1 = 0 := by omega
  have hj : (bestMatch a a).2.1 = 0 := by omega
  have hl : (bestMatch a a).2.2 = a.length := by omega
  rw [Prod.ext_iff, Prod.ext_iff]
  exact ⟨hi, hj, hl⟩

theorem matchCount_self (a : List Char) (ha : a ≠ []) :
    matchCount a a = a.length := by
  have hlen : 0 < a.length := List.length_pos.mpr ha
  obtain ⟨n, hn⟩ : ∃ n, a.length + a.length = n + 1 :=
    ⟨a.length + a.length - 1, by omega⟩
  rw [matchCount, hn, matchCountFuel, bestMatch_self a ha]
  rw [if_neg (by show ¬ a.length = 0; omega :
    ¬ ((0, 0, a.length) : Nat × Nat × Nat).2.2 = 0)]
  show a.length + matchCountFuel n (a.take 0) (a.take 0) +
    matchCountFuel n (a.drop (0 + a.length)) (a.drop (0 + a.length)) = a.length
  rw [List.take_zero, Nat.zero_add, List.drop_length, matchCountFuel_nil]
  omega

theorem pyRound_le_100 (num den : Nat) (hden : 0 < den) (h : num ≤ 100 * den) :
    pyRound num den ≤ 100 := by
  have hqr : den * (num / den) + num % den = num := Nat.div_add_mod num den
  have hr : num % den < den := Nat.mod_lt num hden
  have hq : num / den ≤ 100 := Nat.div_le_of_le_mul (by omega)
  rw [pyRound]
  rcases Nat.lt_or_ge (num / den) 100 with hlt | hge
  · split_ifs <;> omega
  · have h100 : num / den = 100 := le_antisymm hq hge
    have hr0 : num % den = 0 := by
      rw [h100] at hqr
      omega
    rw [hr0]
    rw [if_pos (by omega : 2 * 0 < den)]
    omega

/-- C7: the spec-modelled `fuzz.ratio` is an integer in `[0, 100]` (the
model returns a `Nat`, so only the upper bound is substantive); identical
non-empty strings score `100`; the disjoint one-character strings `"a"` and
`"b"` score `0`; and two empty strings score `100`. -/
theorem fuzz_ratio_spec :
    (∀ a b : String, fuzz_ratio a b ≤ 100) ∧
    (∀ a : String, a ≠ "" → fuzz_ratio a a = 100) ∧
    fuzz_ratio "a" "b" = 0 ∧ fuzz_ratio "" "" = 100 := by
  refine ⟨?_, ?_, by decide, rfl⟩
  · intro a b
    rw [fuzz_ratio]
    by_cases hz : a.data.length + b.data.length = 0
    · rw [if_pos hz]
    · rw [if_neg hz]
      have ⟨hma, hmb⟩ := matchCountFuel_le (a.data.length + b.data.length) a.data b.data
      refine pyRound_le_100 _ _ (by omega) ?_
      rw [matchCount]
      omega
  · intro a ha
    have hd : a.data ≠ [] := by
      intro hdat
      apply ha
      cases a with
      | mk d => exact congrArg String.mk hdat
    have hlen : 0 < a.data.length := List.length_pos.mpr hd
    rw [fuzz_ratio]
    rw [if_neg (by omega : ¬ (a.data.length + a.data.length = 0))]
    rw [matchCount_self a.data hd, pyRound]
    have h200 : 200 * a.data.length = 100 * (a.data.length + a.data.length) := by
      omega
    have hq : 200 * a.data.length / (a.data.length + a.data.length) = 100 := by
      rw [h200]
      exact Nat.mul_div_cancel 100 (by omega)
    have hr : 200 * a.data.length % (a.data.length + a.data.length) = 0 := by
      rw [h200]
      exact Nat.mul_mod_left 100 _
    rw [hq, hr, if_pos (by omega : 2 * 0 < a.data.length + a.data.length)]

/-! ## Concrete instantiations of the theorems with hypotheses -/

theorem group_files_same_norm_same_group_witness :
    normalize_for_match (basename (("Report.PDF", (1 : Nat)) : FileRecord).1) =
      normalize_for_match (basename (("report.pdf", (2 : Nat)) : FileRecord).1) ∧
    ∃ g ∈ group_files [("Report.PDF", 1), ("report.pdf", 2)] 101,
      (("Report.PDF", (1 : Nat)) : FileRecord) ∈ g ∧
        (("report.pdf", (2 : Nat)) : FileRecord) ∈ g :=
  ⟨by decide, group_files_same_norm_same_group [("Report.PDF", 1), ("report.pdf", 2)]
    101 ("Report.PDF", 1) ("report.pdf", 2) (by decide) (by decide) (by decide)⟩

theorem group_files_first_group_antitone_witness :
    (("ab", (0 : Nat)) : FileRecord) ∈
      ([("ab", 0), ("bc", 0)] : List FileRecord) :=
  group_files_first_group_antitone [("ab", 0), ("bc", 0), ("bcd", 0)]
    (by decide : (50 : Nat) ≤ 60) [("ab", 0), ("bc", 0)] [("ab", 0)]
    (by decide) (by decide) ("ab", 0) (by decide)

/-- The concrete group used to instantiate the summarizer theorem. -/
def witnessGroup : List FileRecord := [("b.docx", 5), ("a.pdf", 7)]

theorem summarize_spec_witness :
    witnessGroup ≠ [] ∧
    ((∃ m, witnessGroup.find? (fun f => decide (∀ y ∈ witnessGroup, y.2 ≤ f.2)) = some m ∧
      m ∈ witnessGroup ∧ (∀ f ∈ witnessGroup, f.2 ≤ m.2) ∧
      (summarize witnessGroup).fileName = ⟨(splitextData (basenameData m.1.data)).1⟩ ∧
      (summarize witnessGroup).lastModified = m.2) ∧
    ((summarize witnessGroup).pdfExists = true ↔ ∃ f ∈ witnessGroup, endsWithCI f.1 ".pdf") ∧
    ((summarize witnessGroup).wordExists = true ↔
      ∃ f ∈ witnessGroup, endsWithCI f.1 ".doc" ∨ endsWithCI f.1 ".docx") ∧
    (summarize witnessGroup).allFileNames =
      joinCommaSpace (witnessGroup.map (fun f => basename f.1))) :=
  ⟨by decide, summarize_spec witnessGroup (by decide)⟩

theorem fuzz_ratio_spec_witness :
    ("abc" : String) ≠ "" ∧ fuzz_ratio "abc" "abc" = 100 :=
  ⟨by decide, fuzz_ratio_spec.2.1 "abc" (by decide)⟩

theorem group_files_no_empty_group_witness :
    ([("a.txt", (0 : Nat))] : List FileRecord) ≠ [] :=
  group_files_no_empty_group [("a.txt", 0)] 80 (by decide)
    [("a.txt", 0)] (by decide)

theorem get_mod_time_total_witness :
    get_mod_time (fun _ => some 5) "a" = 5 ∧
      get_mod_time (fun _ => none) "a" = datetime_min :=
  ⟨(get_mod_time_total (fun _ => some 5) "a").1 5 rfl,
    (get_mod_time_total (fun _ => none) "a").2 rfl⟩

theorem group_files_member_order_witness :
    List.Pairwise (fun a b : FileRecord => a.1 ≤ b.1)
      ([("a.txt", 1)] : List FileRecord) :=
  (group_files_member_order [("b.txt", 0), ("a.txt", 1)] 80
    [("a.txt", 1)] (by decide)).1

end Scan
